import Mathlib

/-!
Verification development for the vulnmine record-linkage engine
(`src/vulnmine/ml.py`, `matchven.py`, `matchsft.py`).

The pandas dataframes of the source are modelled as Lean lists of row
structures; each Lean definition is a direct translation of the Python
function it is named after.  The pretrained classifier and the fuzzywuzzy
string-similarity library are external capabilities and enter as opaque
function parameters, exactly as the spec treats them.
-/

namespace Vulnmine

/-! ## Generic list helpers

`dropDupsBy` models `pandas.DataFrame.drop_duplicates(subset=key)` with the
default `keep='first'`: the first row of each key group is retained, in
order.  `olistMax` models the value computed by
`groupby(...)['col'].transform(max)` for one group: the maximum of a list of
values (`none` on an empty list). -/

def dropDupsBy.go {α β : Type} [DecidableEq β] (f : α → β) :
    List β → List α → List α
  | _, [] => []
  | seen, r :: rs =>
    if f r ∈ seen then dropDupsBy.go f seen rs
    else r :: dropDupsBy.go f (f r :: seen) rs

def dropDupsBy {α β : Type} [DecidableEq β] (f : α → β) (l : List α) :
    List α :=
  dropDupsBy.go f [] l

theorem dropDupsBy_go_mem {α β : Type} [DecidableEq β] (f : α → β)
    (seen : List β) (l : List α) :
    ∀ r ∈ dropDupsBy.go f seen l, r ∈ l := by
  induction l generalizing seen with
  | nil => intro r hr; exact absurd hr (List.not_mem_nil r)
  | cons x xs ih =>
    intro r hr
    by_cases hx : f x ∈ seen
    · simp only [dropDupsBy.go, if_pos hx] at hr
      exact List.mem_cons_of_mem x (ih seen r hr)
    · simp only [dropDupsBy.go, if_neg hx, List.mem_cons] at hr
      rcases hr with h | h
      · exact h ▸ List.mem_cons_self x xs
      · exact List.mem_cons_of_mem x (ih (f x :: seen) r h)

theorem dropDupsBy_mem {α β : Type} [DecidableEq β] (f : α → β)
    (l : List α) : ∀ r ∈ dropDupsBy f l, r ∈ l :=
  dropDupsBy_go_mem f [] l

theorem dropDupsBy_go_notSeen {α β : Type} [DecidableEq β] (f : α → β)
    (seen : List β) (l : List α) :
    ∀ r ∈ dropDupsBy.go f seen l, f r ∉ seen := by
  induction l generalizing seen with
  | nil => intro r hr; exact absurd hr (List.not_mem_nil r)
  | cons x xs ih =>
    intro r hr
    by_cases hx : f x ∈ seen
    · simp only [dropDupsBy.go, if_pos hx] at hr
      exact ih seen r hr
    · simp only [dropDupsBy.go, if_neg hx, List.mem_cons] at hr
      rcases hr with h | h
      · exact h ▸ hx
      · intro hc
        exact (ih (f x :: seen) r h) (List.mem_cons_of_mem _ hc)

theorem dropDupsBy_go_pairwise {α β : Type} [DecidableEq β] (f : α → β)
    (seen : List β) (l : List α) :
    List.Pairwise (fun a b => f a ≠ f b) (dropDupsBy.go f seen l) := by
  induction l generalizing seen with
  | nil => exact List.Pairwise.nil
  | cons x xs ih =>
    by_cases hx : f x ∈ seen
    · simpa only [dropDupsBy.go, if_pos hx] using ih seen
    · simp only [dropDupsBy.go, if_neg hx]
      refine List.pairwise_cons.mpr ⟨?_, ih (f x :: seen)⟩
      intro b hb
      have := dropDupsBy_go_notSeen f (f x :: seen) xs b hb
      intro hEq
      exact this (hEq ▸ List.mem_cons_self (f x) seen)

theorem dropDupsBy_pairwise {α β : Type} [DecidableEq β] (f : α → β)
    (l : List α) :
    List.Pairwise (fun a b => f a ≠ f b) (dropDupsBy f l) :=
  dropDupsBy_go_pairwise f [] l

def olistMax : List Int → Option Int
  | [] => none
  | x :: xs =>
    match olistMax xs with
    | none => some x
    | some m => some (max x m)

theorem le_olistMax : ∀ {l : List Int} {a m : Int},
    a ∈ l → olistMax l = some m → a ≤ m := by
  intro l
  induction l with
  | nil => intro a m ha; exact absurd ha (List.not_mem_nil a)
  | cons x xs ih =>
    intro a m ha h
    simp only [olistMax] at h
    rcases List.mem_cons.mp ha with rfl | ha'
    · cases hx : olistMax xs with
      | none => rw [hx] at h; simp at h; omega
      | some m' =>
        rw [hx] at h; simp only [Option.some.injEq] at h
        rw [← h]; exact le_max_left a m'
    · cases hx : olistMax xs with
      | none =>
        cases xs with
        | nil => exact absurd ha' (List.not_mem_nil a)
        | cons y ys => simp [olistMax] at hx; cases h' : olistMax ys <;>
            rw [h'] at hx <;> simp at hx
      | some m' =>
        rw [hx] at h; simp only [Option.some.injEq] at h
        rw [← h]
        exact le_trans (ih ha' hx) (le_max_right x m')

/-! ## Model of `ml.py` (`MLClassify`)

Rows of the candidate dataframe (the pruned cartesian product) and of the
labelled-data dataframe.  `κ` stands for the tuple of key-list columns
(`vendor_key_list` / `sft_key_list` of `gbls.py`).  `feats` holds the
feature-list column values (fuzzywuzzy statistics and name lengths, all
Python ints), in the fixed schema order.  `attrNull` records whether any
column of the configured `attr_list` of the row is null/NaN — the exact
predicate `dropna(how='any', subset=self._attr_list)` tests.  The `match`
column (spelled `mtch`, null = `none`) exists only after the labelled merge,
so candidate rows (`CandRow`) have no such field while merged / labelled
rows (`MRow`) do. -/

structure CandRow (κ : Type) where
  key : κ
  feats : List Int
  attrNull : Bool
deriving DecidableEq

structure MRow (κ : Type) where
  key : κ
  feats : List Int
  attrNull : Bool
  mtch : Option Nat
deriving DecidableEq

/-- Result of `MLClassify.upd_using_labelled_data`: either an early return of
the untouched candidate dataframe (which has no `match` column), or the
merged dataframe (which has one). -/
inductive UpdResult (κ : Type) where
  | unchanged : List (CandRow κ) → UpdResult κ
  | merged : List (MRow κ) → UpdResult κ
deriving DecidableEq

/-- `pd.merge(df_match, df_match_lbl1, how='left', on=self._key_list)` where
`df_match_lbl1 = df_match_lbl.loc[:, key_list + ['match']]`: each candidate
row is joined with every labelled row sharing its key tuple; a candidate
with no labelled partner gets `match = NaN`. -/
def mergeLeftMatch {κ : Type} [DecidableEq κ] (df_match : List (CandRow κ))
    (df_match_lbl : List (MRow κ)) : List (MRow κ) :=
  df_match.flatMap fun c =>
    let ms := df_match_lbl.filter fun l => decide (l.key = c.key)
    if ms = [] then [⟨c.key, c.feats, c.attrNull, none⟩]
    else ms.map fun l => ⟨c.key, c.feats, c.attrNull, l.mtch⟩

/-- The non-empty path of `upd_using_labelled_data`: left-merge of the
labels followed by `dropna(how='any', subset=self._attr_list)`. -/
def mergedUpd {κ : Type} [DecidableEq κ] (df_match : List (CandRow κ))
    (df_match_lbl : List (MRow κ)) : List (MRow κ) :=
  (mergeLeftMatch df_match df_match_lbl).filter fun r => !r.attrNull

/-- `MLClassify.upd_using_labelled_data` (ml.py:194-277). -/
def upd_using_labelled_data {κ : Type} [DecidableEq κ]
    (df_match : List (CandRow κ)) (df_match_lbl : List (MRow κ)) :
    UpdResult κ :=
  if df_match_lbl = [] then .unchanged df_match
  else if df_match = [] then .unchanged df_match
  else .merged (mergedUpd df_match df_match_lbl)

/-- `df_match_test2['match'] = s_match_test` after
`reset_index(drop=True)`: positional assignment of the prediction vector
onto the test slice; pandas fills missing positions with NaN. -/
def assignMatches {κ : Type} : List (MRow κ) → List Nat → List (MRow κ)
  | [], _ => []
  | r :: rs, [] => { r with mtch := none } :: assignMatches rs []
  | r :: rs, p :: ps => { r with mtch := some p } :: assignMatches rs ps

/-- `MLClassify.ml_classify` (ml.py:279-374).  `predict` is the opaque
pretrained classifier `self.__clf.predict`, consuming the feature matrix of
the unlabelled slice.  Returns (freshly classified test slice, slice that
was already labelled). -/
def ml_classify {κ : Type} [DecidableEq κ]
    (predict : List (List Int) → List Nat)
    (df_match_upd : List (MRow κ)) : List (MRow κ) × List (MRow κ) :=
  if df_match_upd = [] then (df_match_upd, df_match_upd)
  else
    let test := df_match_upd.filter fun r => r.mtch.isNone
    let labelled := df_match_upd.filter fun r => r.mtch.isSome
    if test = [] then (test, labelled)
    else (assignMatches test (predict (test.map MRow.feats)), labelled)

/-- `MLClassify.post_process_matched_data` (ml.py:376-466): if one slice is
empty the other is returned as is; otherwise the not-null part of the test
slice is concatenated with the labelled slice, duplicates on the key list
are dropped (first kept), and only `match == 1` rows are retained. -/
def post_process_matched_data {κ : Type} [DecidableEq κ]
    (df_match_test2 df_match_lbl : List (MRow κ)) : List (MRow κ) :=
  if df_match_lbl = [] then df_match_test2
  else if df_match_test2 = [] then df_match_lbl
  else
    let consol1 :=
      (df_match_test2.filter fun r => r.mtch.isSome) ++ df_match_lbl
    let consol := dropDupsBy MRow.key consol1
    consol.filter fun r => decide (r.mtch = some 1)

/-! ## Supporting lemmas about the `MLClassify` pipeline -/

theorem mergedUpd_key_labelled {κ : Type} [DecidableEq κ]
    {df_match : List (CandRow κ)} {df_match_lbl : List (MRow κ)}
    (hlbl : ∀ l ∈ df_match_lbl, l.mtch = some 0 ∨ l.mtch = some 1)
    {k : κ} (hk : k ∈ df_match_lbl.map MRow.key) :
    ∀ r ∈ mergedUpd df_match df_match_lbl, r.key = k → r.mtch ≠ none := by
  intro r hr hkey
  unfold mergedUpd at hr
  have hr' := (List.mem_filter.mp hr).1
  unfold mergeLeftMatch at hr'
  rcases List.mem_flatMap.mp hr' with ⟨c, _, hc⟩
  by_cases hms :
      df_match_lbl.filter (fun l => decide (l.key = c.key)) = []
  · rw [if_pos hms] at hc
    simp only [List.mem_singleton] at hc
    subst hc
    simp only at hkey
    subst hkey
    rcases List.mem_map.mp hk with ⟨l, hl, hlk⟩
    have : l ∈ df_match_lbl.filter (fun l => decide (l.key = c.key)) :=
      List.mem_filter.mpr ⟨hl, by simp [hlk]⟩
    rw [hms] at this
    exact absurd this (List.not_mem_nil l)
  · rw [if_neg hms] at hc
    rcases List.mem_map.mp hc with ⟨l, hl, rfl⟩
    have hl' := (List.mem_filter.mp hl).1
    rcases hlbl l hl' with h0 | h0 <;> simp [h0]

theorem assignMatches_key {κ : Type} (l : List (MRow κ)) (ps : List Nat) :
    ∀ r ∈ assignMatches l ps, ∃ r0 ∈ l, r.key = r0.key := by
  induction l generalizing ps with
  | nil => intro r hr; cases ps <;> exact absurd hr (List.not_mem_nil r)
  | cons x xs ih =>
    intro r hr
    cases ps with
    | nil =>
      simp only [assignMatches, List.mem_cons] at hr
      rcases hr with rfl | hr
      · exact ⟨x, List.mem_cons_self x xs, rfl⟩
      · rcases ih [] r hr with ⟨r0, h0, hk⟩
        exact ⟨r0, List.mem_cons_of_mem x h0, hk⟩
    | cons p ps' =>
      simp only [assignMatches, List.mem_cons] at hr
      rcases hr with rfl | hr
      · exact ⟨x, List.mem_cons_self x xs, rfl⟩
      · rcases ih ps' r hr with ⟨r0, h0, hk⟩
        exact ⟨r0, List.mem_cons_of_mem x h0, hk⟩

theorem ml_classify_test_mem {κ : Type} [DecidableEq κ]
    (predict : List (List Int) → List Nat) (df : List (MRow κ)) :
    ∀ r ∈ (ml_classify predict df).1,
      ∃ r0 ∈ df.filter (fun r => r.mtch.isNone), r.key = r0.key := by
  intro r hr
  unfold ml_classify at hr
  by_cases hdf : df = []
  · rw [if_pos hdf] at hr
    rw [hdf] at hr
    exact absurd hr (List.not_mem_nil r)
  · rw [if_neg hdf] at hr
    simp only at hr
    by_cases ht : df.filter (fun r => r.mtch.isNone) = []
    · rw [if_pos ht] at hr
      rw [ht] at hr
      exact absurd hr (List.not_mem_nil r)
    · rw [if_neg ht] at hr
      exact assignMatches_key _ _ r hr

theorem ml_classify_no_test {κ : Type} [DecidableEq κ]
    (predict : List (List Int) → List Nat) (df : List (MRow κ))
    (h : df.filter (fun r => r.mtch.isNone) = []) :
    ml_classify predict df = ([], df.filter fun r => r.mtch.isSome) := by
  unfold ml_classify
  by_cases hdf : df = []
  · subst hdf; simp
  · rw [if_neg hdf]
    simp [h]

theorem post_process_mem_split {κ : Type} [DecidableEq κ]
    (t l : List (MRow κ)) :
    ∀ r ∈ post_process_matched_data t l, r ∈ t ∨ r ∈ l := by
  intro r hr
  unfold post_process_matched_data at hr
  by_cases hl : l = []
  · rw [if_pos hl] at hr; exact Or.inl hr
  · rw [if_neg hl] at hr
    by_cases ht : t = []
    · rw [if_pos ht] at hr; exact Or.inr hr
    · rw [if_neg ht] at hr
      simp only at hr
      have hr' := (List.mem_filter.mp hr).1
      have hr'' := dropDupsBy_mem _ _ r hr'
      rcases List.mem_append.mp hr'' with h | h
      · exact Or.inl (List.mem_filter.mp h).1
      · exact Or.inr h

/-! ## Claims C1, C7, C10 — properties of the `MLClassify` consolidator -/

/-- C1 counterexample.  The claim asserts that every row of the table
returned by `post_process_matched_data` has `match == 1` *including when
exactly one of the two input slices is empty*.  It is false: when the
labelled slice is empty the freshly classified slice is returned unchanged,
Negative rows (`match == 0`) included. -/
theorem C1_counterexample :
    ¬ (∀ r ∈ post_process_matched_data
          [(⟨0, [], false, some 0⟩ : MRow Nat)] [], r.mtch = some 1) := by
  decide

/-- C1 (amended): when *both* input slices are non-empty, every row of the
consolidated table returned by `post_process_matched_data` has label
Positive (`match == 1`); in particular no Negative (`match == 0`) row
appears.  (When one slice is empty the other is returned unchanged and may
retain Negative rows.) -/
theorem C1_theorem {κ : Type} [DecidableEq κ]
    (df_match_test2 df_match_lbl : List (MRow κ))
    (h2 : df_match_test2 ≠ []) (hl : df_match_lbl ≠ []) :
    ∀ r ∈ post_process_matched_data df_match_test2 df_match_lbl,
      r.mtch = some 1 := by
  intro r hr
  unfold post_process_matched_data at hr
  rw [if_neg hl, if_neg h2] at hr
  simp only [List.mem_filter, decide_eq_true_eq] at hr
  exact hr.2

/-- C1 witness: the amended theorem at a concrete pair of slices. -/
theorem C1_witness :
    ([(⟨0, [], false, some 0⟩ : MRow Nat)] ≠ [])
    ∧ ([(⟨1, [], false, some 1⟩ : MRow Nat)] ≠ [])
    ∧ ∀ r ∈ post_process_matched_data
          [(⟨0, [], false, some 0⟩ : MRow Nat)] [⟨1, [], false, some 1⟩],
        r.mtch = some 1 :=
  ⟨by decide, by decide,
    C1_theorem [⟨0, [], false, some 0⟩] [⟨1, [], false, some 1⟩]
      (by decide) (by decide)⟩

/-- C7 counterexample.  The claim asserts key-tuple uniqueness of the final
linkage table *for every pair of input slices*.  It is false: when the
freshly classified slice is empty, `post_process_matched_data` returns the
labelled slice unchanged, so two labelled rows sharing a key tuple both
reach the final table (the vendor stage passes the raw labelled CSV here).
-/
theorem C7_counterexample :
    post_process_matched_data ([] : List (MRow Nat))
        [⟨0, [1], false, some 1⟩, ⟨0, [2], false, some 1⟩]
      = [⟨0, [1], false, some 1⟩, ⟨0, [2], false, some 1⟩]
    ∧ (⟨0, [1], false, some 1⟩ : MRow Nat).key
        = (⟨0, [2], false, some 1⟩ : MRow Nat).key
    ∧ (⟨0, [1], false, some 1⟩ : MRow Nat) ≠ ⟨0, [2], false, some 1⟩ :=
  ⟨rfl, rfl, by decide⟩

/-- C7 (amended): when both input slices are non-empty, the consolidated
table returned by `post_process_matched_data` has a unique key tuple: no
two of its rows share the same key (`drop_duplicates` on the stage's key
list).  When one slice is empty the other is returned unchanged, so
uniqueness holds only if that slice is already key-unique — as in the
software stage, whose two slices first pass `replace_dups_by_best_match`.
-/
theorem C7_theorem {κ : Type} [DecidableEq κ]
    (df_match_test2 df_match_lbl : List (MRow κ))
    (h2 : df_match_test2 ≠ []) (hl : df_match_lbl ≠ []) :
    List.Pairwise (fun a b => a.key ≠ b.key)
      (post_process_matched_data df_match_test2 df_match_lbl) := by
  unfold post_process_matched_data
  rw [if_neg hl, if_neg h2]
  exact List.Pairwise.sublist (List.filter_sublist _)
    (dropDupsBy_pairwise MRow.key _)

/-- C7 witness: the amended theorem at a concrete pair of slices sharing a
key tuple across the slices. -/
theorem C7_witness :
    ([(⟨0, [1], false, some 1⟩ : MRow Nat)] ≠ [])
    ∧ ([(⟨0, [2], false, some 1⟩ : MRow Nat)] ≠ [])
    ∧ List.Pairwise (fun a b => a.key ≠ b.key)
        (post_process_matched_data [(⟨0, [1], false, some 1⟩ : MRow Nat)]
          [⟨0, [2], false, some 1⟩]) :=
  ⟨by decide, by decide,
    C7_theorem [⟨0, [1], false, some 1⟩] [⟨0, [2], false, some 1⟩]
      (by decide) (by decide)⟩

/-- C10: if either input dataframe of `upd_using_labelled_data` is empty,
the candidate dataframe is returned unchanged — no `match` column merged
in, no rows dropped, so rows with null attribute values survive; on the
non-empty path every row with any null among the configured attribute
columns is dropped (`dropna(how='any', subset=attr_list)`). -/
theorem C10_theorem {κ : Type} [DecidableEq κ]
    (df_match : List (CandRow κ)) (df_match_lbl : List (MRow κ)) :
    ((df_match = [] ∨ df_match_lbl = []) →
      upd_using_labelled_data df_match df_match_lbl = .unchanged df_match)
    ∧ (df_match ≠ [] → df_match_lbl ≠ [] →
        upd_using_labelled_data df_match df_match_lbl
            = .merged (mergedUpd df_match df_match_lbl)
        ∧ ∀ r ∈ mergedUpd df_match df_match_lbl, r.attrNull = false) := by
  constructor
  · intro h
    unfold upd_using_labelled_data
    rcases h with h | h
    · by_cases hl : df_match_lbl = []
      · rw [if_pos hl]
      · rw [if_neg hl, if_pos h]
    · rw [if_pos h]
  · intro hm hl
    constructor
    · unfold upd_using_labelled_data
      rw [if_neg hl, if_neg hm]
    · intro r hr
      unfold mergedUpd at hr
      simp only [List.mem_filter, Bool.not_eq_eq_eq_not, Bool.not_true] at hr
      exact hr.2

/-- C10 witness: both paths of the theorem at concrete inputs — an
empty labelled dataframe (a null-attribute row survives unchanged) and a
non-empty pair (null-attribute rows are dropped). -/
theorem C10_witness :
    upd_using_labelled_data [(⟨0, [], true⟩ : CandRow Nat)] []
        = .unchanged [⟨0, [], true⟩]
    ∧ (upd_using_labelled_data [(⟨0, [], true⟩ : CandRow Nat)]
          [⟨0, [], false, some 1⟩]
          = .merged (mergedUpd [⟨0, [], true⟩] [⟨0, [], false, some 1⟩])
        ∧ ∀ r ∈ mergedUpd [(⟨0, [], true⟩ : CandRow Nat)]
            [⟨0, [], false, some 1⟩], r.attrNull = false) :=
  ⟨( C10_theorem [⟨0, [], true⟩] []).1 (Or.inr rfl),
    ( C10_theorem [⟨0, [], true⟩] [⟨0, [], false, some 1⟩]).2
      (by decide) (by decide)⟩

/-- C2: with binary ground-truth labels, the classifier is invoked only on
rows whose `match` is null — `ml_classify` passes `predict` exactly the
feature matrix of the null-`match` slice, and (a) no row whose key tuple
appears in the labelled examples is in that slice; (b) in the consolidated
table every row carrying such a key has the labelled ground-truth label,
never a classifier prediction; (c) if the unlabelled slice is empty the
empty slice is returned unchanged and the result does not depend on the
model at all (the model is not invoked). -/
theorem C2_theorem {κ : Type} [DecidableEq κ]
    (predict : List (List Int) → List Nat)
    (df_match : List (CandRow κ)) (df_match_lbl : List (MRow κ))
    (hlbl : ∀ l ∈ df_match_lbl, l.mtch = some 0 ∨ l.mtch = some 1)
    (hfun : ∀ l1 ∈ df_match_lbl, ∀ l2 ∈ df_match_lbl,
      l1.key = l2.key → l1.mtch = l2.mtch)
    (k : κ) (hk : k ∈ df_match_lbl.map MRow.key) :
    (∀ r ∈ (mergedUpd df_match df_match_lbl).filter
        (fun r => r.mtch.isNone), r.key ≠ k)
    ∧ (∀ r ∈ post_process_matched_data
          (ml_classify predict (mergedUpd df_match df_match_lbl)).1
          df_match_lbl,
        r.key = k → ∀ l ∈ df_match_lbl, l.key = k → r.mtch = l.mtch)
    ∧ ((mergedUpd df_match df_match_lbl).filter
          (fun r => r.mtch.isNone) = [] →
        (ml_classify predict (mergedUpd df_match df_match_lbl)).1 = []
        ∧ ∀ predict2,
            ml_classify predict2 (mergedUpd df_match df_match_lbl)
              = ml_classify predict (mergedUpd df_match df_match_lbl)) := by
  have hnull : ∀ r ∈ (mergedUpd df_match df_match_lbl).filter
      (fun r => r.mtch.isNone), r.key ≠ k := by
    intro r hr hkey
    have h1 := List.mem_filter.mp hr
    have h2 := mergedUpd_key_labelled hlbl hk r h1.1 hkey
    exact h2 (Option.isNone_iff_eq_none.mp h1.2)
  refine ⟨hnull, ?_, ?_⟩
  · intro r hr hkey l hl hlk
    rcases post_process_mem_split _ _ r hr with h | h
    · rcases ml_classify_test_mem predict _ r h with ⟨r0, hr0, hrk⟩
      exact absurd (hrk.symm.trans hkey) (hnull r0 hr0)
    · exact hfun r h l hl (hkey.trans hlk.symm)
  · intro htest
    rw [ml_classify_no_test predict _ htest]
    exact ⟨rfl, fun predict2 => ml_classify_no_test predict2 _ htest⟩

/-- C2 witness: the theorem at a concrete candidate set, labelled set and
key; one candidate key (0) is labelled Positive, the other (1) is unknown.
-/
theorem C2_witness :
    (∀ l ∈ [(⟨0, [5], false, some 1⟩ : MRow Nat)],
      l.mtch = some 0 ∨ l.mtch = some 1)
    ∧ (∀ l1 ∈ [(⟨0, [5], false, some 1⟩ : MRow Nat)],
        ∀ l2 ∈ [(⟨0, [5], false, some 1⟩ : MRow Nat)],
        l1.key = l2.key → l1.mtch = l2.mtch)
    ∧ (0 ∈ ([(⟨0, [5], false, some 1⟩ : MRow Nat)]).map MRow.key)
    ∧ ((∀ r ∈ (mergedUpd [(⟨0, [5], false⟩ : CandRow Nat), ⟨1, [7], false⟩]
          [⟨0, [5], false, some 1⟩]).filter
          (fun r => r.mtch.isNone), r.key ≠ 0)
      ∧ (∀ r ∈ post_process_matched_data
            (ml_classify (fun l => l.map fun _ => 0)
              (mergedUpd [(⟨0, [5], false⟩ : CandRow Nat), ⟨1, [7], false⟩]
                [⟨0, [5], false, some 1⟩])).1
            [⟨0, [5], false, some 1⟩],
          r.key = 0 → ∀ l ∈ [(⟨0, [5], false, some 1⟩ : MRow Nat)],
            l.key = 0 → r.mtch = l.mtch)
      ∧ ((mergedUpd [(⟨0, [5], false⟩ : CandRow Nat), ⟨1, [7], false⟩]
            [⟨0, [5], false, some 1⟩]).filter
            (fun r => r.mtch.isNone) = [] →
          (ml_classify (fun l => l.map fun _ => 0)
            (mergedUpd [(⟨0, [5], false⟩ : CandRow Nat), ⟨1, [7], false⟩]
              [⟨0, [5], false, some 1⟩])).1 = []
          ∧ ∀ predict2,
              ml_classify predict2
                (mergedUpd [(⟨0, [5], false⟩ : CandRow Nat), ⟨1, [7], false⟩]
                  [⟨0, [5], false, some 1⟩])
                = ml_classify (fun l => l.map fun _ => 0)
                  (mergedUpd
                    [(⟨0, [5], false⟩ : CandRow Nat), ⟨1, [7], false⟩]
                    [⟨0, [5], false, some 1⟩]))) :=
  ⟨by decide, by decide, by decide,
    C2_theorem (fun l => l.map fun _ => 0)
      [⟨0, [5], false⟩, ⟨1, [7], false⟩] [⟨0, [5], false, some 1⟩]
      (by decide) (by decide) 0 (by decide)⟩

/-! ## Model of `matchsft.py` — `replace_dups_by_best_match`

Rows of the software-stage match dataframe.  Only the columns that
`replace_dups_by_best_match` (matchsft.py:792-852) touches are modelled as
typed fields (`match`, `fz_uwratio` and the three grouping columns); the
other columns it carries along unchanged (`software_X`, `title_X`,
`release_X`, `t_cve_name`, the remaining fuzzy statistics) are represented
by the fields below that the function never reads. -/

structure SftRow where
  vendor_X : String
  software_X : String
  title_X : String
  DisplayName0 : String
  release_X : String
  Version0 : String
  fz_uwratio : Int
  t_cve_name : String
  mtch : Option Nat
deriving DecidableEq

/-- The grouping key of `groupby(["vendor_X", "DisplayName0", "Version0"])`
and of the subsequent `drop_duplicates(subset=...)`. -/
def key3 (r : SftRow) : String × String × String :=
  (r.vendor_X, r.DisplayName0, r.Version0)

/-- `replace_dups_by_best_match` (matchsft.py:792-852): keep only
`match == 1` rows, within each (vendor, display-name, version) group keep
the rows whose `fz_uwratio` equals the group maximum
(`transform(max)`), then `drop_duplicates` on the same three columns. -/
def replace_dups_by_best_match (df : List SftRow) : List SftRow :=
  if df = [] then df
  else
    let pos := df.filter fun r => decide (r.mtch = some 1)
    let best := pos.filter fun r =>
      decide (some r.fz_uwratio
        = olistMax ((pos.filter fun s => decide (key3 s = key3 r)).map
            SftRow.fz_uwratio))
    dropDupsBy key3 best

/-- C3: for every non-empty input dataframe, `replace_dups_by_best_match`
returns only `match == 1` rows, at most one row per
(vendor_X, DisplayName0, Version0) group, each surviving row's
`fz_uwratio` equal to the maximum `fz_uwratio` among the Positive rows of
its group (so it dominates every Positive row of the group). -/
theorem C3_theorem (df : List SftRow) (hdf : df ≠ []) :
    (∀ r ∈ replace_dups_by_best_match df, r.mtch = some 1)
    ∧ List.Pairwise (fun a b => key3 a ≠ key3 b)
        (replace_dups_by_best_match df)
    ∧ (∀ r ∈ replace_dups_by_best_match df,
        some r.fz_uwratio
          = olistMax (((df.filter fun s => decide (s.mtch = some 1)).filter
              fun s => decide (key3 s = key3 r)).map SftRow.fz_uwratio))
    ∧ ∀ r ∈ replace_dups_by_best_match df, ∀ s ∈ df, s.mtch = some 1 →
        key3 s = key3 r → s.fz_uwratio ≤ r.fz_uwratio := by
  have hmem : ∀ r ∈ replace_dups_by_best_match df,
      r.mtch = some 1 ∧
      some r.fz_uwratio
        = olistMax (((df.filter fun s => decide (s.mtch = some 1)).filter
            fun s => decide (key3 s = key3 r)).map SftRow.fz_uwratio) := by
    intro r hr
    unfold replace_dups_by_best_match at hr
    rw [if_neg hdf] at hr
    simp only at hr
    have h1 := dropDupsBy_mem _ _ r hr
    have h2 := List.mem_filter.mp h1
    have h3 := List.mem_filter.mp h2.1
    exact ⟨of_decide_eq_true h3.2, of_decide_eq_true h2.2⟩
  refine ⟨fun r hr => (hmem r hr).1, ?_, fun r hr => (hmem r hr).2, ?_⟩
  · unfold replace_dups_by_best_match
    rw [if_neg hdf]
    exact dropDupsBy_pairwise key3 _
  · intro r hr s hs hs1 hsk
    have hmax := (hmem r hr).2
    refine le_olistMax ?_ hmax.symm
    exact List.mem_map.mpr ⟨s, List.mem_filter.mpr
      ⟨List.mem_filter.mpr ⟨hs, by simp [hs1]⟩, by simp [hsk]⟩, rfl⟩

/-- C3 witness: two Positive rows sharing the linkage key with tie-break
statistics 90 and 95 — only the 95-scoring row survives. -/
theorem C3_witness :
    ([(⟨"adobe", "acrobat", "acrobat 9", "Acrobat", "9.0", "9.0", 90,
        "cve-a", some 1⟩ : SftRow),
      ⟨"adobe", "acrobat", "acrobat 9", "Acrobat", "9.0", "9.0", 95,
        "cve-b", some 1⟩] ≠ [])
    ∧ replace_dups_by_best_match
        [⟨"adobe", "acrobat", "acrobat 9", "Acrobat", "9.0", "9.0", 90,
          "cve-a", some 1⟩,
         ⟨"adobe", "acrobat", "acrobat 9", "Acrobat", "9.0", "9.0", 95,
          "cve-b", some 1⟩]
        = [⟨"adobe", "acrobat", "acrobat 9", "Acrobat", "9.0", "9.0", 95,
          "cve-b", some 1⟩]
    ∧ ∀ r ∈ replace_dups_by_best_match
        [⟨"adobe", "acrobat", "acrobat 9", "Acrobat", "9.0", "9.0", 90,
          "cve-a", some 1⟩,
         ⟨"adobe", "acrobat", "acrobat 9", "Acrobat", "9.0", "9.0", 95,
          "cve-b", some 1⟩], r.mtch = some 1 :=
  ⟨by decide, by decide,
    ( C3_theorem
      [⟨"adobe", "acrobat", "acrobat 9", "Acrobat", "9.0", "9.0", 90,
        "cve-a", some 1⟩,
       ⟨"adobe", "acrobat", "acrobat 9", "Acrobat", "9.0", "9.0", 95,
        "cve-b", some 1⟩] (by decide)).1⟩

/-! ## Model of `matchven.py` — vendor-stage candidate generation

`FuzzOps` is the fuzzywuzzy similarity capability (`fuzz.ratio`,
`fuzz.partial_ratio`, `fuzz.token_set_ratio`, `fuzz.partial_token_sort_ratio`,
`fuzz.token_sort_ratio`, `fuzz.UWRatio`, `fuzz.partial_token_set_ratio`),
opaque integer-valued statistics on string pairs; the spec's §4.2 interface.
Field names follow the `fz_*` column names of the source. -/

structure FuzzOps where
  ratio : String → String → Int
  ptl_ratio : String → String → Int
  tok_set_ratio : String → String → Int
  ptl_tok_sort_ratio : String → String → Int
  tok_sort_ratio : String → String → Int
  uwratio : String → String → Int
  ptl_tok_set_ratio : String → String → Int

/-- A prepared CPE vendor record of `df_cpeVen`: the normalized original
name (`vendor_X`) and the cleaned, stop-word-free name (`ven_cln`). -/
structure VenRec where
  vendor_X : String
  ven_cln : String
deriving DecidableEq

/-- A prepared SCCM publisher record of `df_arPub`. -/
structure PubRec where
  publisher0 : String
  pub0_cln : String
deriving DecidableEq

/-- One emitted row of the vendor-stage cartesian product
(matchven.py:387-409). -/
structure VenCand where
  publisher0 : String
  pub0_cln : String
  vendor_X : String
  ven_cln : String
  fz_ratio : Int
  fz_ptl_ratio : Int
  fz_tok_set_ratio : Int
  fz_ptl_tok_sort_ratio : Int
  fz_uwratio : Int
deriving DecidableEq

/-- The candidate row `lst_dict.append({...})` builds for a surviving
(cpe vendor, sccm publisher) pair, fuzzy statistics computed on the two
cleaned names. -/
def mkVenCand (fz : FuzzOps) (v : VenRec) (p : PubRec) : VenCand :=
  ⟨p.publisher0, p.pub0_cln, v.vendor_X, v.ven_cln,
    fz.ratio v.ven_cln p.pub0_cln,
    fz.ptl_ratio v.ven_cln p.pub0_cln,
    fz.tok_set_ratio v.ven_cln p.pub0_cln,
    fz.ptl_tok_sort_ratio v.ven_cln p.pub0_cln,
    fz.uwratio v.ven_cln p.pub0_cln⟩

/-- The inner-loop body of `_cartesian_product` (matchven.py:358-409):
reject when the cleaned cpe name is longer than the cleaned publisher name
or when the partial-token-set ratio is below 100; otherwise emit the
candidate with its full feature set. -/
def venPairCand (fz : FuzzOps) (v : VenRec) (p : PubRec) : Option VenCand :=
  if v.ven_cln.length > p.pub0_cln.length then none
  else if fz.ptl_tok_set_ratio v.ven_cln p.pub0_cln < 100 then none
  else some (mkVenCand fz v p)

/-- `MatchVendor.match._cartesian_product` (matchven.py:322-447): for each
cpe vendor whose cleaned name has at least 2 characters, pair it against
every publisher record surviving the reject rules. -/
def vendor_cartesian_product (fz : FuzzOps) (df_cpeVen : List VenRec)
    (df_arPub : List PubRec) : List VenCand :=
  df_cpeVen.flatMap fun v =>
    if v.ven_cln.length < 2 then []
    else df_arPub.filterMap (venPairCand fz v)

theorem venPairCand_eq_some {fz : FuzzOps} {v : VenRec} {p : PubRec}
    {c : VenCand} (h : venPairCand fz v p = some c) :
    v.ven_cln.length ≤ p.pub0_cln.length ∧
    ¬ fz.ptl_tok_set_ratio v.ven_cln p.pub0_cln < 100 ∧
    c = mkVenCand fz v p := by
  unfold venPairCand at h
  by_cases h1 : v.ven_cln.length > p.pub0_cln.length
  · rw [if_pos h1] at h; exact absurd h (by simp)
  · rw [if_neg h1] at h
    by_cases h2 : fz.ptl_tok_set_ratio v.ven_cln p.pub0_cln < 100
    · rw [if_pos h2] at h; exact absurd h (by simp)
    · rw [if_neg h2] at h
      simp only [Option.some.injEq] at h
      exact ⟨le_of_not_lt h1, h2, h.symm⟩

/-- C4: a (CPE vendor, SCCM publisher) pair is emitted by the vendor-stage
`_cartesian_product` iff the cleaned vendor name has length at least 2,
its length does not exceed the cleaned publisher name's length, and the
partial-token-set ratio of the two cleaned names equals 100 (a rejected
pair never reaches the feature computation). -/
theorem C4_theorem (fz : FuzzOps)
    (hb : ∀ a b, fz.ptl_tok_set_ratio a b ≤ 100)
    (df_cpeVen : List VenRec) (df_arPub : List PubRec)
    (v : VenRec) (hv : v ∈ df_cpeVen) (p : PubRec) (hp : p ∈ df_arPub) :
    mkVenCand fz v p ∈ vendor_cartesian_product fz df_cpeVen df_arPub ↔
      (2 ≤ v.ven_cln.length
       ∧ v.ven_cln.length ≤ p.pub0_cln.length
       ∧ fz.ptl_tok_set_ratio v.ven_cln p.pub0_cln = 100) := by
  constructor
  · intro h
    rcases List.mem_flatMap.mp h with ⟨v', hv', hmem⟩
    by_cases hlen : v'.ven_cln.length < 2
    · rw [if_pos hlen] at hmem
      exact absurd hmem (List.not_mem_nil _)
    · rw [if_neg hlen] at hmem
      rcases List.mem_filterMap.mp hmem with ⟨p', hp', hsome⟩
      rcases venPairCand_eq_some hsome with ⟨h1, h2, h3⟩
      have hvc : v'.ven_cln = v.ven_cln := congrArg VenCand.ven_cln h3.symm
      have hpc : p'.pub0_cln = p.pub0_cln := congrArg VenCand.pub0_cln h3.symm
      rw [hvc, hpc] at h1 h2
      rw [hvc] at hlen
      exact ⟨le_of_not_lt hlen, h1,
        le_antisymm (hb _ _) (le_of_not_lt h2)⟩
  · rintro ⟨h1, h2, h3⟩
    refine List.mem_flatMap.mpr ⟨v, hv, ?_⟩
    rw [if_neg (not_lt.mpr h1)]
    refine List.mem_filterMap.mpr ⟨p, hp, ?_⟩
    unfold venPairCand
    rw [if_neg (not_lt.mpr h2), if_neg (by rw [h3]; exact lt_irrefl 100)]

/-- Constant similarity capability used to instantiate witnesses. -/
def constFuzz : FuzzOps :=
  ⟨fun _ _ => 100, fun _ _ => 100, fun _ _ => 100, fun _ _ => 100,
   fun _ _ => 100, fun _ _ => 100, fun _ _ => 100⟩

/-- C4 witness: the theorem at the spec's oracle / oracle_corporation
scenario, similarity given by `constFuzz`. -/
theorem C4_witness :
    (∀ a b, constFuzz.ptl_tok_set_ratio a b ≤ 100)
    ∧ ((⟨"oracle", "  oracle"⟩ : VenRec) ∈ [(⟨"oracle", "  oracle"⟩ : VenRec)])
    ∧ ((⟨"oracle_corporation", "  oracle corporation"⟩ : PubRec)
        ∈ [(⟨"oracle_corporation", "  oracle corporation"⟩ : PubRec)])
    ∧ (mkVenCand constFuzz ⟨"oracle", "  oracle"⟩
          ⟨"oracle_corporation", "  oracle corporation"⟩
        ∈ vendor_cartesian_product constFuzz [⟨"oracle", "  oracle"⟩]
          [⟨"oracle_corporation", "  oracle corporation"⟩] ↔
      (2 ≤ ("  oracle" : String).length
       ∧ ("  oracle" : String).length
          ≤ ("  oracle corporation" : String).length
       ∧ constFuzz.ptl_tok_set_ratio "  oracle" "  oracle corporation"
          = 100)) :=
  ⟨fun _ _ => le_refl 100, by decide, by decide,
    C4_theorem constFuzz (fun _ _ => le_refl 100)
      [⟨"oracle", "  oracle"⟩]
      [⟨"oracle_corporation", "  oracle corporation"⟩]
      ⟨"oracle", "  oracle"⟩ (by decide)
      ⟨"oracle_corporation", "  oracle corporation"⟩ (by decide)⟩

/-! ## Model of `matchsft.py` — software-stage candidate generation -/

/-- One group key of the prepared SCCM inventory
`groupby(['vendor_X', 'DisplayName0', 'Version0'])` (the loop of
matchsft.py:505-508 uses nothing but the key). -/
structure ArKey where
  vendor_X : String
  DisplayName0 : String
  Version0 : String
deriving DecidableEq

/-- One prepared CPE software record of `df_cpeSoft`
(matchsft.py:436-443). -/
structure CpeRec where
  vendor_X : String
  software_X : String
  release_X : String
  title_X : String
  cpe23_name : String
  t_cve_name : String
deriving DecidableEq

/-- One emitted row of the software-stage cartesian product
(matchsft.py:598-628) together with the two name-length features added at
matchsft.py:675-678. -/
structure SftCand where
  vendor_X : String
  software_X : String
  Version0 : String
  release_X : String
  title_X : String
  DisplayName0 : String
  fz_ratio : Int
  fz_ptl_ratio : Int
  fz_tok_set_ratio : Int
  fz_ptl_tok_sort_ratio : Int
  fz_uwratio : Int
  fz_rel_ratio : Int
  fz_rel_ptl_ratio : Int
  t_cve_name : String
  titlX_len : Int
  DsplyNm0_len : Int
deriving DecidableEq

/-- The Java-normalized CPE release (matchsft.py:540-546): for oracle/sun
jre/jdk records the release is recomputed from the cpe23 name by
`_fix_java_rel`, an opaque regex routine passed in as `fixJavaRel`;
otherwise `release_X` is used as is. -/
def javaAdjRel (fixJavaRel : String → String) (c : CpeRec) : String :=
  if (c.vendor_X = "oracle" ∨ c.vendor_X = "sun")
      ∧ (c.software_X = "jre" ∨ c.software_X = "jdk")
  then fixJavaRel c.cpe23_name
  else c.release_X

/-- `t_cpe_titleX.lower().replace(t_cpe_vdr_X, ' ')` (matchsft.py:550-553):
the vendor name is stripped from the lower-cased CPE title before fuzzy
matching. -/
def strippedTitle (c : CpeRec) : String :=
  c.title_X.toLower.replace c.vendor_X " "

/-- `t_ar_dsply0.lower().replace(t_cpe_vdr_X, ' ')` (matchsft.py:554-557).
-/
def strippedDsply (key : ArKey) (c : CpeRec) : String :=
  key.DisplayName0.toLower.replace c.vendor_X " "

/-- The inner-loop body of the software `_cartesian_product`
(matchsft.py:540-628): the contribution of one (SCCM group key, CPE
record) pair — empty when a reject heuristic fires, otherwise the single
candidate row with its full feature set. -/
def sftPairCand (fz : FuzzOps) (fixJavaRel : String → String)
    (key : ArKey) (c : CpeRec) : List SftCand :=
  if javaAdjRel fixJavaRel c ≠ "-" ∧ key.Version0 ≠ "-"
      ∧ (fz.ratio (javaAdjRel fixJavaRel c) key.Version0 < 90
         ∨ fz.ptl_ratio (javaAdjRel fixJavaRel c) key.Version0 < 100) then []
  else if fz.ptl_tok_set_ratio (strippedTitle c) (strippedDsply key c) < 70
  then []
  else
    [⟨c.vendor_X, c.software_X, key.Version0, c.release_X, c.title_X,
      key.DisplayName0,
      fz.ratio (strippedTitle c) (strippedDsply key c),
      fz.ptl_ratio (strippedTitle c) (strippedDsply key c),
      fz.ptl_tok_set_ratio (strippedTitle c) (strippedDsply key c),
      fz.tok_sort_ratio (strippedTitle c) (strippedDsply key c),
      fz.uwratio (strippedTitle c) (strippedDsply key c),
      fz.ratio (javaAdjRel fixJavaRel c) key.Version0,
      fz.ptl_ratio (javaAdjRel fixJavaRel c) key.Version0,
      c.t_cve_name,
      Int.ofNat c.title_X.length, Int.ofNat key.DisplayName0.length⟩]

/-- `MatchSoft.match._cartesian_product` (matchsft.py:482-695): iterate the
SCCM group keys, skip microsoft and version-less cisco webex entries, look
up the CPE group of the key's vendor (a missing group logs a KeyError and
skips), and collect the surviving candidate pairs. -/
def sft_cartesian_product (fz : FuzzOps) (fixJavaRel : String → String)
    (arKeys : List ArKey) (df_cpeSoft : List CpeRec) : List SftCand :=
  arKeys.flatMap fun key =>
    if key.vendor_X = "microsoft" then []
    else if key.vendor_X = "cisco" ∧ key.Version0 = "-"
        ∧ List.IsInfix "webex".data key.DisplayName0.toLower.data then []
    else
      let grp := df_cpeSoft.filter fun c => decide (c.vendor_X = key.vendor_X)
      if grp = [] then []
      else grp.flatMap (sftPairCand fz fixJavaRel key)

/-- C5: in the software stage, when both the Java-normalized CPE release
and the SCCM version differ from the missing-value marker "-", a pair is
emitted only if the exact fuzzy ratio of release and version is at least
90 and the partial ratio equals 100; a pair failing either bound, or whose
partial-token-set ratio of the vendor-stripped names is below 70,
contributes no candidate — and every row of the full cartesian product is
the contribution of some surviving pair. -/
theorem C5_theorem (fz : FuzzOps) (fixJavaRel : String → String)
    (hb : ∀ a b, fz.ptl_ratio a b ≤ 100)
    (key : ArKey) (c : CpeRec)
    (arKeys : List ArKey) (df_cpeSoft : List CpeRec) :
    (sftPairCand fz fixJavaRel key c ≠ [] →
      javaAdjRel fixJavaRel c ≠ "-" → key.Version0 ≠ "-" →
      90 ≤ fz.ratio (javaAdjRel fixJavaRel c) key.Version0
      ∧ fz.ptl_ratio (javaAdjRel fixJavaRel c) key.Version0 = 100)
    ∧ (javaAdjRel fixJavaRel c ≠ "-" → key.Version0 ≠ "-" →
        (fz.ratio (javaAdjRel fixJavaRel c) key.Version0 < 90
         ∨ fz.ptl_ratio (javaAdjRel fixJavaRel c) key.Version0 < 100) →
        sftPairCand fz fixJavaRel key c = [])
    ∧ (fz.ptl_tok_set_ratio (strippedTitle c) (strippedDsply key c) < 70 →
        sftPairCand fz fixJavaRel key c = [])
    ∧ ∀ r ∈ sft_cartesian_product fz fixJavaRel arKeys df_cpeSoft,
        ∃ k' ∈ arKeys, ∃ c' ∈ df_cpeSoft,
          r ∈ sftPairCand fz fixJavaRel k' c' := by
  refine ⟨?_, ?_, ?_, ?_⟩
  · intro hne hrel hver
    by_cases hfail : fz.ratio (javaAdjRel fixJavaRel c) key.Version0 < 90
        ∨ fz.ptl_ratio (javaAdjRel fixJavaRel c) key.Version0 < 100
    · exact absurd (by unfold sftPairCand; rw [if_pos ⟨hrel, hver, hfail⟩])
        hne
    · push_neg at hfail
      exact ⟨hfail.1, le_antisymm (hb _ _) hfail.2⟩
  · intro hrel hver hfail
    unfold sftPairCand
    rw [if_pos ⟨hrel, hver, hfail⟩]
  · intro htok
    unfold sftPairCand
    by_cases h1 : javaAdjRel fixJavaRel c ≠ "-" ∧ key.Version0 ≠ "-"
        ∧ (fz.ratio (javaAdjRel fixJavaRel c) key.Version0 < 90
           ∨ fz.ptl_ratio (javaAdjRel fixJavaRel c) key.Version0 < 100)
    · rw [if_pos h1]
    · rw [if_neg h1, if_pos htok]
  · intro r hr
    rcases List.mem_flatMap.mp hr with ⟨k', hk', hmem⟩
    refine ⟨k', hk', ?_⟩
    by_cases h1 : k'.vendor_X = "microsoft"
    · rw [if_pos h1] at hmem; exact absurd hmem (List.not_mem_nil r)
    · rw [if_neg h1] at hmem
      by_cases h2 : k'.vendor_X = "cisco" ∧ k'.Version0 = "-"
          ∧ List.IsInfix "webex".data k'.DisplayName0.toLower.data
      · rw [if_pos h2] at hmem; exact absurd hmem (List.not_mem_nil r)
      · rw [if_neg h2] at hmem
        simp only at hmem
        by_cases h3 : df_cpeSoft.filter
            (fun c => decide (c.vendor_X = k'.vendor_X)) = []
        · rw [if_pos h3] at hmem; exact absurd hmem (List.not_mem_nil r)
        · rw [if_neg h3] at hmem
          rcases List.mem_flatMap.mp hmem with ⟨c', hc', hrc⟩
          exact ⟨c', (List.mem_filter.mp hc').1, hrc⟩

/-- C5 witness: the theorem at a concrete adobe reader pair, similarity
given by `constFuzz`, the Java fix by the identity function. -/
theorem C5_witness :
    (∀ a b, constFuzz.ptl_ratio a b ≤ 100)
    ∧ ((sftPairCand constFuzz id ⟨"adobe", "Reader", "9.0"⟩
          ⟨"adobe", "reader", "9.0", "adobe reader 9.0", "cpe23", "cve-1"⟩
            ≠ [] →
        javaAdjRel id
            ⟨"adobe", "reader", "9.0", "adobe reader 9.0", "cpe23", "cve-1"⟩
          ≠ "-" →
        (⟨"adobe", "Reader", "9.0"⟩ : ArKey).Version0 ≠ "-" →
        90 ≤ constFuzz.ratio (javaAdjRel id
            ⟨"adobe", "reader", "9.0", "adobe reader 9.0", "cpe23", "cve-1"⟩)
            "9.0"
        ∧ constFuzz.ptl_ratio (javaAdjRel id
            ⟨"adobe", "reader", "9.0", "adobe reader 9.0", "cpe23", "cve-1"⟩)
            "9.0" = 100)) :=
  ⟨fun _ _ => le_refl 100,
    ( C5_theorem constFuzz id (fun _ _ => le_refl 100)
      ⟨"adobe", "Reader", "9.0"⟩
      ⟨"adobe", "reader", "9.0", "adobe reader 9.0", "cpe23", "cve-1"⟩
      [] []).1⟩

/-! ## Claim C6 — failure handling when reading labelled examples -/

/-- An uncaught Python exception aborting the matching run. -/
inductive PyFail where
  | nameError
deriving DecidableEq

/-- `MatchSoft.match._update_with_labelled_data` (matchsft.py:701-775).
The result of `pd.io.parsers.read_csv(gbls.df_label_software, ...)` is
passed in; `Except.error` means the read raised `IOError`.  On that path
the source logs the error (`except IOError as e: self.logger.critical`)
and falls through — but the very next statement (matchsft.py:728-736)
reads `labelled_sft_data.shape`, and `labelled_sft_data` was never
assigned, so Python raises an uncaught `NameError` that aborts the
matching run. -/
def sft_update_with_labelled_data {κ : Type} [DecidableEq κ]
    (df_match1 : List (CandRow κ))
    (readLabelled : Except Unit (List (MRow κ))) :
    Except PyFail (UpdResult κ × List (MRow κ)) :=
  match readLabelled with
  | .error _ => .error .nameError
  | .ok labelled_sft_data =>
      .ok (upd_using_labelled_data df_match1 labelled_sft_data,
        labelled_sft_data)

/-- `MatchVendor.match._update_with_labelled_data` (matchven.py:453-506):
identical structure; after a successful read the labelled `vendor_X`
column is normalized (modelled by `normVendor` on the key tuple) before
the merge.  On the `IOError` path the next statement (matchven.py:485-486)
references the unassigned `df_match_lbl` — again an uncaught `NameError`.
-/
def ven_update_with_labelled_data {κ : Type} [DecidableEq κ]
    (normVendor : κ → κ) (df_match : List (CandRow κ))
    (readLabelled : Except Unit (List (MRow κ))) :
    Except PyFail (UpdResult κ × List (MRow κ)) :=
  match readLabelled with
  | .error _ => .error .nameError
  | .ok df_match_lbl =>
      let lbl := df_match_lbl.map fun l => { l with key := normVendor l.key }
      .ok (upd_using_labelled_data df_match lbl, lbl)

/-- C6 (code bug): the claim — matching the docstrings "IOError: log error
message and ignore" — says a failed labelled-examples read is logged and
the run proceeds with zero labelled examples.  The code instead aborts:
both stages' `_update_with_labelled_data` end in an uncaught `NameError`
on the read-failure path, because the variable holding the labelled data
is referenced without ever being assigned. -/
theorem C6_theorem {κ : Type} [DecidableEq κ] (normVendor : κ → κ)
    (df_match df_match1 : List (CandRow κ)) :
    sft_update_with_labelled_data df_match1
        (.error () : Except Unit (List (MRow κ))) = .error .nameError
    ∧ ven_update_with_labelled_data normVendor df_match
        (.error () : Except Unit (List (MRow κ))) = .error .nameError :=
  ⟨rfl, rfl⟩

/-! ## Claim C8 — mutation of the caller's SCCM inventory dataframe -/

/-- A row of the SCCM `Add_Remove_Pgms` inventory dataframe handed to
`MatchSoft.match` (`df_sccm_ar`). -/
structure SccmRow where
  Publisher0 : String
  DisplayName0 : String
  Version0 : Option String
deriving DecidableEq

/-- The SCCM inventory dataframe object: its rows plus the `publisher0`
column, which does not exist until someone writes it. -/
structure ArDf where
  rows : List SccmRow
  publisher0_col : Option (List String)
deriving DecidableEq

/-- A row of the vendor-publisher linkage table of the first stage. -/
structure VPRow where
  publisher0 : String
  vendor_X : String
deriving DecidableEq

/-- A row of the cleaned `df_arSft` (columns `vendor_X`, `DisplayName0`,
`Version0`; `vendor_X` is null when the publisher had no vendor match). -/
structure ArSftRow where
  vendor_X : Option String
  DisplayName0 : String
  Version0 : String
deriving DecidableEq

/-- `MatchSoft.match._match_prepare_sccm_data` (matchsft.py:336-418).
`df_add_rem_g0 = df_add_rem_g` merely aliases the caller's dataframe, so
the assignment `df_add_rem_g0['publisher0'] = ...str.lower()` writes the
new column onto the caller's object — the second component returned here
is the caller-visible final state of `df_sccm_ar`.  The first component is
the cleaned `df_arSft` (left merge with the vendor-publisher table on the
lower-cased publisher, three columns kept, missing `Version0` set to "-")
which the source then groups by its three columns. -/
def match_prepare_sccm_data (df_add_rem_g : ArDf)
    (df_match_vendor_publisher : List VPRow) : List ArSftRow × ArDf :=
  let df_add_rem_g0 : ArDf :=
    { df_add_rem_g with
        publisher0_col :=
          some (df_add_rem_g.rows.map fun r => r.Publisher0.toLower) }
  let g1 : List (String × SccmRow) :=
    df_add_rem_g.rows.map fun r => (r.Publisher0.toLower, r)
  let g3 : List (String × SccmRow × Option String) := g1.flatMap fun pr =>
    let ms := df_match_vendor_publisher.filter fun v =>
      decide (v.publisher0 = pr.1)
    if ms = [] then [(pr.1, pr.2, none)]
    else ms.map fun v => (pr.1, pr.2, some v.vendor_X)
  let df_arSft : List ArSftRow :=
    g3.map fun t => ⟨t.2.2, t.2.1.DisplayName0, t.2.1.Version0.getD "-"⟩
  (df_arSft, df_add_rem_g0)

/-- C8 counterexample.  The claim says no stage mutates the caller's input
dataframes; but after `_match_prepare_sccm_data` runs, the SCCM inventory
dataframe given to `MatchSoft.match` is no longer equal to what the caller
passed in. -/
theorem C8_counterexample :
    (match_prepare_sccm_data
        ⟨[⟨"Adobe Systems", "Reader", some "9.0"⟩], none⟩ []).2
      ≠ ⟨[⟨"Adobe Systems", "Reader", some "9.0"⟩], none⟩ := by
  intro h
  exact Option.noConfusion (congrArg ArDf.publisher0_col h)

/-- C8 (amended): the `MLClassify` operations copy their inputs, but
`_match_prepare_sccm_data` aliases the caller's SCCM inventory dataframe
and writes the lower-cased `publisher0` column onto it; that added column
is the only caller-visible change — the row data is left intact. -/
theorem C8_theorem (df_add_rem_g : ArDf)
    (df_match_vendor_publisher : List VPRow) :
    (match_prepare_sccm_data df_add_rem_g df_match_vendor_publisher).2.rows
        = df_add_rem_g.rows
    ∧ (match_prepare_sccm_data df_add_rem_g
          df_match_vendor_publisher).2.publisher0_col
        = some (df_add_rem_g.rows.map fun r => r.Publisher0.toLower) :=
  ⟨rfl, rfl⟩

/-! ## Claim C9 — name normalization and its idempotence

Model of the per-string pipeline of `MatchVendor.match._match_prepare`
(matchven.py:252-301) and `_remove` (matchven.py:234-240), at the level of
Python strings as lists of characters:

* `.str.replace(' ', '_')`               — `replUnd`;
* `.str.lower()`                         — `pyLower` (ASCII model via
  `Char.toLower`, as in Python for the ASCII range);
* `.str.replace('[-_]', ' ')` (cpe side) and
  `.str.replace('[_.,()+!]', ' ')` (publisher side) — `replSep seps` with
  the respective separator class;
* `.str.split()`                         — `pySplit`, splitting on
  whitespace runs and discarding empty pieces;
* `_remove`                              — `removeTok`, the fold that
  starts from `' '` and appends `' ' + tok` for every token not in the
  stop-word list and longer than one character. -/

def replUnd (s : List Char) : List Char :=
  s.map fun c => if c = ' ' then '_' else c

def pyLower (s : List Char) : List Char :=
  s.map Char.toLower

def replSep (seps : List Char) (s : List Char) : List Char :=
  s.map fun c => if c ∈ seps then ' ' else c

def pySplit : List Char → List (List Char)
  | [] => []
  | c :: cs =>
    if _hws : c.isWhitespace then pySplit cs
    else
      (c :: cs).takeWhile (fun d => !d.isWhitespace)
        :: pySplit ((c :: cs).dropWhile fun d => !d.isWhitespace)
termination_by s => s.length
decreasing_by
  · simp only [List.length_cons]
    omega
  · rw [List.dropWhile_cons, if_pos (by simp [_hws])]
    have := (List.dropWhile_sublist (l := cs)
      (fun d => !d.isWhitespace)).length_le
    simp only [List.length_cons]
    omega

def removeTok (stop : List (List Char)) (toks : List (List Char)) :
    List Char :=
  toks.foldl
    (fun result t =>
      if t ∉ stop ∧ 1 < t.length then result ++ (' ' :: t) else result)
    [' ']

/-- The complete per-name transformation: lower-case with separators
mapped to spaces, tokenize, drop stop words and one-character tokens,
rejoin. -/
def normalizeName (stop : List (List Char)) (seps : List Char)
    (s : List Char) : List Char :=
  removeTok stop (pySplit (replSep seps (pyLower (replUnd s))))

/-- The shape `removeTok` gives its result: a leading space, then each
token preceded by one space. -/
def joinToks (ts : List (List Char)) : List Char :=
  ' ' :: (ts.map fun t => ' ' :: t).flatten

theorem removeTok_eq_joinToks (stop : List (List Char))
    (ts : List (List Char)) :
    removeTok stop ts
      = joinToks (ts.filter fun t => decide (t ∉ stop ∧ 1 < t.length)) := by
  suffices h : ∀ acc,
      ts.foldl
        (fun result t =>
          if t ∉ stop ∧ 1 < t.length then result ++ (' ' :: t) else result)
        acc
      = acc ++ ((ts.filter fun t =>
          decide (t ∉ stop ∧ 1 < t.length)).map fun t => ' ' :: t).flatten by
    rw [removeTok, h [' ']]; rfl
  induction ts with
  | nil => intro acc; simp
  | cons t ts ih =>
    intro acc
    by_cases ht : t ∉ stop ∧ 1 < t.length
    · simp only [List.foldl_cons, if_pos ht, List.filter_cons,
        decide_eq_true ht, if_true, ih, List.map_cons, List.flatten_cons,
        List.append_assoc]
    · simp only [List.foldl_cons, if_neg ht, List.filter_cons]
      rw [decide_eq_false ht]
      exact ih acc

theorem pySplit_nil : pySplit [] = [] := by simp [pySplit]

theorem pySplit_ws {c : Char} (cs : List Char) (h : c.isWhitespace = true) :
    pySplit (c :: cs) = pySplit cs := by
  rw [pySplit, dif_pos h]

theorem pySplit_tok {c : Char} (cs : List Char)
    (h : ¬ c.isWhitespace = true) :
    pySplit (c :: cs)
      = (c :: cs).takeWhile (fun d => !d.isWhitespace)
        :: pySplit ((c :: cs).dropWhile fun d => !d.isWhitespace) := by
  rw [pySplit, dif_neg h]

theorem takeWhile_append_of_all {α : Type} {p : α → Bool} :
    ∀ {t r : List α}, (∀ c ∈ t, p c = true) →
      (r = [] ∨ ∃ d rs, r = d :: rs ∧ p d = false) →
      (t ++ r).takeWhile p = t ∧ (t ++ r).dropWhile p = r := by
  intro t
  induction t with
  | nil =>
    intro r _ hr
    rcases hr with rfl | ⟨d, rs, rfl, hd⟩
    · simp
    · simp [List.takeWhile_cons, List.dropWhile_cons, hd]
  | cons c t ih =>
    intro r ht hr
    have hc : p c = true := ht c (List.mem_cons_self c t)
    have := ih (fun d hd => ht d (List.mem_cons_of_mem c hd)) hr
    simp only [List.cons_append, List.takeWhile_cons, List.dropWhile_cons,
      hc, if_true, this.1, this.2, and_self]

theorem pySplit_innerJoin (ts : List (List Char))
    (h : ∀ t ∈ ts, t ≠ [] ∧ ∀ c ∈ t, (!c.isWhitespace) = true) :
    pySplit ((ts.map fun t => ' ' :: t).flatten) = ts := by
  induction ts with
  | nil => exact pySplit_nil
  | cons t ts ih =>
    have hne := (h t (List.mem_cons_self t ts)).1
    have hchars := (h t (List.mem_cons_self t ts)).2
    rcases List.exists_cons_of_ne_nil hne with ⟨c, t', rfl⟩
    have hcws : ¬ c.isWhitespace = true := by
      have := hchars c (List.mem_cons_self c t')
      simp only [Bool.not_eq_true'] at this
      simp [this]
    simp only [List.map_cons, List.flatten_cons, List.cons_append]
    rw [pySplit_ws _ (by decide)]
    have hrest : (ts.map fun t => ' ' :: t).flatten = []
        ∨ ∃ d rs, (ts.map fun t => ' ' :: t).flatten = d :: rs
            ∧ (!d.isWhitespace) = false := by
      cases ts with
      | nil => left; rfl
      | cons u us =>
        right
        exact ⟨' ', u ++ (us.map fun t => ' ' :: t).flatten,
          by simp, by decide⟩
    have hsplit := takeWhile_append_of_all hchars hrest
    have e1 : List.takeWhile (fun d => !d.isWhitespace)
        (c :: (t' ++ (ts.map fun t => ' ' :: t).flatten)) = c :: t' := by
      have := hsplit.1
      simpa [List.cons_append] using this
    have e2 : List.dropWhile (fun d => !d.isWhitespace)
        (c :: (t' ++ (ts.map fun t => ' ' :: t).flatten))
        = (ts.map fun t => ' ' :: t).flatten := by
      have := hsplit.2
      simpa [List.cons_append] using this
    rw [pySplit_tok _ hcws, e1, e2,
      ih fun u hu => (by exact h u (List.mem_cons_of_mem _ hu))]

theorem pySplit_joinToks (ts : List (List Char))
    (h : ∀ t ∈ ts, t ≠ [] ∧ ∀ c ∈ t, (!c.isWhitespace) = true) :
    pySplit (joinToks ts) = ts := by
  unfold joinToks
  rw [pySplit_ws _ (by decide)]
  exact pySplit_innerJoin ts h

theorem pySplit_tokens_aux : ∀ (n : Nat) (s : List Char), s.length ≤ n →
    ∀ t ∈ pySplit s, t ≠ [] ∧ ∀ c ∈ t,
      (!c.isWhitespace) = true ∧ c ∈ s := by
  intro n
  induction n with
  | zero =>
    intro s hs t ht
    have : s = [] := List.eq_nil_of_length_eq_zero (Nat.le_zero.mp hs)
    subst this
    rw [pySplit_nil] at ht
    exact absurd ht (List.not_mem_nil t)
  | succ n ih =>
    intro s hs t ht
    cases s with
    | nil =>
      rw [pySplit_nil] at ht
      exact absurd ht (List.not_mem_nil t)
    | cons c cs =>
      simp only [List.length_cons, Nat.succ_le_succ_iff] at hs
      by_cases hws : c.isWhitespace = true
      · rw [pySplit_ws cs hws] at ht
        have h := ih cs hs t ht
        exact ⟨h.1, fun d hd =>
          ⟨(h.2 d hd).1, List.mem_cons_of_mem c (h.2 d hd).2⟩⟩
      · rw [pySplit_tok cs hws] at ht
        rcases List.mem_cons.mp ht with rfl | ht'
        · constructor
          · rw [List.takeWhile_cons, if_pos (by simp [hws])]
            exact List.cons_ne_nil c _
          · intro d hd
            have hp := List.mem_takeWhile_imp hd
            exact ⟨hp, (List.takeWhile_sublist _).subset hd⟩
        · have hlen :
              ((c :: cs).dropWhile fun d => !d.isWhitespace).length ≤ n := by
            rw [List.dropWhile_cons, if_pos (by simp [hws])]
            exact le_trans
              (List.Sublist.length_le (List.dropWhile_sublist _)) hs
          have h := ih _ hlen t ht'
          exact ⟨h.1, fun d hd =>
            ⟨(h.2 d hd).1, (List.dropWhile_sublist _).subset (h.2 d hd).2⟩⟩

theorem pySplit_tokens (s : List Char) :
    ∀ t ∈ pySplit s, t ≠ [] ∧ ∀ c ∈ t,
      (!c.isWhitespace) = true ∧ c ∈ s :=
  pySplit_tokens_aux s.length s le_rfl

theorem toNat_ofNat_valid {n : Nat} (h : n.isValidChar) :
    (Char.ofNat n).toNat = n := by
  unfold Char.ofNat
  rw [dif_pos h]
  simp [Char.ofNatAux, Char.toNat, UInt32.toNat, BitVec.toNat_ofNatLt]

theorem toLower_idem (c : Char) : c.toLower.toLower = c.toLower := by
  unfold Char.toLower
  simp only []
  by_cases h : c.toNat ≥ 65 ∧ c.toNat ≤ 90
  · rw [if_pos h]
    have hv : (c.toNat + 32).isValidChar := by
      left
      have : c.toNat ≤ 90 := h.2
      omega
    rw [toNat_ofNat_valid hv]
    rw [if_neg (by omega)]
  · rw [if_neg h, if_neg h]

/-- Every non-whitespace character of a prepared
(`replace`-`lower`-`replace`) name avoids the separator class, is a fixed
point of `Char.toLower`, and is not a space. -/
theorem prepped_char {seps : List Char} {x : List Char} :
    ∀ d ∈ replSep seps (pyLower x), (!d.isWhitespace) = true →
      d ∉ seps ∧ d.toLower = d ∧ d ≠ ' ' := by
  intro d hd hw
  unfold replSep pyLower at hd
  rw [List.map_map] at hd
  rcases List.mem_map.mp hd with ⟨c0, _, hc0⟩
  simp only [Function.comp_apply] at hc0
  by_cases hs : c0.toLower ∈ seps
  · rw [if_pos hs] at hc0
    rw [← hc0] at hw
    simp at hw
  · rw [if_neg hs] at hc0
    subst hc0
    refine ⟨hs, toLower_idem c0, ?_⟩
    intro hsp
    rw [hsp] at hw
    simp at hw

/-- Re-running the `replace`-`lower`-`replace` chain on a joined token list
whose token characters are already clean is the identity: the joining
spaces go to `'_'` and come back to spaces (`'_'` is in every separator
class used by the source), and clean token characters are untouched. -/
theorem map_joinShape (g : Char → Char) (a b : Char)
    (ts : List (List Char)) (hga : g a = b)
    (htok : ∀ t ∈ ts, ∀ c ∈ t, g c = c) :
    List.map g (a :: (ts.map fun t => a :: t).flatten)
      = b :: (ts.map fun t => b :: t).flatten := by
  simp only [List.map_cons, hga, List.map_flatten, List.map_map]
  congr 1
  congr 1
  refine List.map_congr_left fun t ht => ?_
  simp only [Function.comp_apply, List.map_cons, hga]
  congr 1
  calc t.map g = t.map id := List.map_congr_left (htok t ht)
  _ = t := List.map_id t

theorem chain_fixes_join {seps : List Char} (hsep : '_' ∈ seps)
    (ts : List (List Char))
    (h : ∀ t ∈ ts, ∀ c ∈ t, c ∉ seps ∧ c.toLower = c ∧ c ≠ ' ') :
    replSep seps (pyLower (replUnd (joinToks ts))) = joinToks ts := by
  unfold replSep pyLower replUnd joinToks
  rw [map_joinShape (fun c => if c = ' ' then '_' else c) ' ' '_' ts
      (by decide) (fun t ht c hc => if_neg (h t ht c hc).2.2),
    map_joinShape Char.toLower '_' '_' ts (by decide)
      (fun t ht c hc => (h t ht c hc).2.1),
    map_joinShape (fun c => if c ∈ seps then ' ' else c) '_' ' ' ts
      (if_pos hsep) (fun t ht c hc => if_neg (h t ht c hc).1)]

/-- C9: name normalization is idempotent.  For every raw name and every
separator class containing `'_'` (both classes of `_match_prepare` do),
applying the normalize–tokenize–remove-stop-words transformation to a
cleaned name it has already produced yields that cleaned name again. -/
theorem C9_theorem (stop : List (List Char)) (seps : List Char)
    (hsep : '_' ∈ seps) (s : List Char) :
    normalizeName stop seps (normalizeName stop seps s)
      = normalizeName stop seps s := by
  have h1 : normalizeName stop seps s
      = joinToks ((pySplit (replSep seps (pyLower (replUnd s)))).filter
          fun t => decide (t ∉ stop ∧ 1 < t.length)) := by
    unfold normalizeName
    rw [removeTok_eq_joinToks]
  have htoks := pySplit_tokens (replSep seps (pyLower (replUnd s)))
  have hmem : ∀ t ∈ (pySplit (replSep seps (pyLower (replUnd s)))).filter
      (fun t => decide (t ∉ stop ∧ 1 < t.length)),
      t ∈ pySplit (replSep seps (pyLower (replUnd s))) :=
    fun t ht => (List.mem_filter.mp ht).1
  have hshape : ∀ t ∈ (pySplit (replSep seps (pyLower (replUnd s)))).filter
      (fun t => decide (t ∉ stop ∧ 1 < t.length)),
      t ≠ [] ∧ ∀ c ∈ t, (!c.isWhitespace) = true :=
    fun t ht => ⟨(htoks t (hmem t ht)).1,
      fun c hc => ((htoks t (hmem t ht)).2 c hc).1⟩
  have hclean : ∀ t ∈ (pySplit (replSep seps (pyLower (replUnd s)))).filter
      (fun t => decide (t ∉ stop ∧ 1 < t.length)),
      ∀ c ∈ t, c ∉ seps ∧ c.toLower = c ∧ c ≠ ' ' := by
    intro t ht c hc
    exact prepped_char c ((htoks t (hmem t ht)).2 c hc).2
      ((htoks t (hmem t ht)).2 c hc).1
  have hkeep : ∀ t ∈ (pySplit (replSep seps (pyLower (replUnd s)))).filter
      (fun t => decide (t ∉ stop ∧ 1 < t.length)),
      decide (t ∉ stop ∧ 1 < t.length) = true :=
    fun t ht => (List.mem_filter.mp ht).2
  conv_lhs => rw [h1]
  unfold normalizeName
  rw [chain_fixes_join hsep _ hclean, pySplit_joinToks _ hshape,
    removeTok_eq_joinToks, List.filter_eq_self.mpr hkeep]
  exact (removeTok_eq_joinToks stop _).symm

/-- C9 witness: the theorem at a concrete stop-word list, the cpe-side
separator class `[-_]`, and a concrete raw vendor name. -/
theorem C9_witness :
    ('_' ∈ ['-', '_'])
    ∧ normalizeName [['i', 'n', 'c']] ['-', '_']
        (normalizeName [['i', 'n', 'c']] ['-', '_']
          "Oracle America_Inc".data)
      = normalizeName [['i', 'n', 'c']] ['-', '_']
          "Oracle America_Inc".data :=
  ⟨by decide,
    C9_theorem [['i', 'n', 'c']] ['-', '_'] (by decide)
      "Oracle America_Inc".data⟩

end Vulnmine
